import Mathlib

/-!
# Verification of the `proximal` ulp-scaled floating-point comparator

This file gives a shallow embedding of the core of the `proximal` header
(`utils` namespace: `count_leading_zeros`, the `__representation`
specializations for IEEE-754 single and double precision, `exp2i`, `ilog2`,
`ulp`, `margin`, and the `proximal<N>` comparator), together with an
executable model of the IEEE-754 value semantics of the host platform's
float operations (`==`, `<`, `<=`, `std::abs`, `std::max`, subtraction with
round-to-nearest-even) that the comparator relies on.

Machine words are modelled as `ℕ` with explicit `% 2^w` field extraction
(`x & mask` / `x >> k` become `% 2^k` / `/ 2^k` on the relevant constants,
as documented at each definition).  Finite float values are represented by
their *scaled integer significance* `ival : ℤ`: the real value of a finite
bit pattern `b` is `ival b * 2^(-scale)` where `scale` is `149` for single
and `1074` for double precision (the negated exponent of the smallest
subnormal).  This fixed-point representation is exact for every finite
value of the format, so IEEE equality / order on finite values is integer
equality / order on `ival`, and exact differences of finite values are
integers on the same scale.

`__builtin_clz` applied to a zero word is undefined behaviour; partial
computations whose C++ execution would be undefined are modelled with
`Option` (`none` = undefined).
-/

set_option maxRecDepth 20000
set_option exponentiation.threshold 4000

namespace Proximal

/-! ## Bit utilities -/

/-- Fuel-driven binary digit counter (the fuel argument only ensures
structural termination; `bitlen` supplies `n` itself as fuel, which is
always sufficient). -/
def bitlenAux : ℕ → ℕ → ℕ
  | 0, _ => 0
  | f+1, n => if n = 0 then 0 else bitlenAux f (n / 2) + 1

/-- Number of binary digits of `n` (`0` for `0`); for `n ≠ 0` the leading
set bit of `n` is bit number `bitlen n - 1`. -/
def bitlen (n : ℕ) : ℕ := bitlenAux n n

/-- Semantics of the compiler builtin `__builtin_clz` on a 32-bit word:
defined only for nonzero arguments (`__builtin_clz(0)` is undefined
behaviour, modelled as `none`), where it returns `32 - bitlen u`. -/
def builtinClz32 (u : ℕ) : Option ℕ :=
  if u = 0 then none else some (32 - bitlen u)

/-- `count_leading_zeros(std::uint32_t)` (source lines 88–103):
`if (u == 0) return sizeof(u) * 8; return __builtin_clz(u);` — the zero
case is explicitly guarded, so this overload is total. -/
def clz32 (u : ℕ) : ℕ :=
  if u = 0 then 32 else 32 - bitlen u

/-- `count_leading_zeros(std::uint64_t)` (source lines 105–129), on the
builtin path of a little-endian target (the configuration exercised by the
repository: x86, where `words[0]` is the low half and `words[1]` the high
half of `u`):

```
if (u == 0) return sizeof(u) * 8;
bitwords& words = reinterpret_cast<bitwords&>(u);
if (words[1] != 0) return __builtin_clz(words[0]) + 32;
else               return __builtin_clz(words[1]);
```

Both branches after the zero guard apply the raw builtin, whose argument
may be (in the `else` branch: always is) a zero word, hence the `Option`. -/
def clz64 (u : ℕ) : Option ℕ :=
  if u = 0 then some 64
  else
    let lo := u % 2^32        -- words[0]
    let hi := u / 2^32 % 2^32 -- words[1]
    if hi ≠ 0 then (builtinClz32 lo).map (· + 32)
    else builtinClz32 hi

/-! ## Format descriptors

The two IEEE-754 `__representation` specializations (source lines 156–306
for `float`, 308–459 for `double`) share one code shape and differ only in
their constants; we capture the constants in a structure and translate the
member functions once, parametrically.  The correspondence is

| source constant    | `float`      | `double`              | here            |
|--------------------|--------------|-----------------------|-----------------|
| `exp_bias`         | 127          | 1023                  | `bias = 2^(ew-1) - 1` |
| `exp_shift`        | 23           | 52                    | `p`             |
| `sig_offset`       | 9            | 12                    | `sigOffset`     |
| `exp_mask`         | 0x7F800000   | 0x7FF0...0            | field `/ 2^p % 2^ew` |
| `sig_mask`         | 0x007FFFFF   | 0x000FF...F           | `% 2^p`         |
| `sig_integer_bit`  | 0x00800000   | 0x0010...0            | `2^p`           |
-/

structure Fmt where
  /-- significand field width in bits (`exp_shift`): 23 / 52 -/
  p : ℕ
  /-- exponent field width in bits: 8 / 11 -/
  ew : ℕ
  /-- the `sig_offset` constant: 9 / 12 -/
  sigOffset : ℕ
  /-- the `count_leading_zeros` overload applied to the significand word
  (total `clz32` for `float`, partial `clz64` for `double`) -/
  clz : ℕ → Option ℕ
  hp : 0 < p
  hew : 1 < ew
  hoff : sigOffset ≤ 2^(ew - 1)

/-- the `exp_bias` constant -/
def Fmt.bias (F : Fmt) : ℤ := ((2^(F.ew - 1) : ℕ) : ℤ) - 1

/-- all-ones exponent field (infinity / NaN) -/
def Fmt.emaxField (F : Fmt) : ℕ := 2^F.ew - 1

/-- number of bits below the sign bit -/
def Fmt.width (F : Fmt) : ℕ := F.ew + F.p

/-- `-scale` is the exponent of the smallest positive subnormal:
`scale = p + bias - 1` (149 for `float`, 1074 for `double`).  A finite
pattern with integer significance `m` (see `ival`) denotes `m · 2^(-scale)`. -/
def Fmt.scale (F : Fmt) : ℕ := F.p + 2^(F.ew - 1) - 2

/-- IEEE-754 single precision: `__representation<float, bits32, bits32>`. -/
def floatFmt : Fmt where
  p := 23
  ew := 8
  sigOffset := 9
  clz := fun s => some (clz32 s)
  hp := by decide
  hew := by decide
  hoff := by decide

/-- IEEE-754 double precision: `__representation<double, bits64, bits64>`. -/
def doubleFmt : Fmt where
  p := 52
  ew := 11
  sigOffset := 12
  clz := clz64
  hp := by decide
  hew := by decide
  hoff := by decide

/-! ## Representation-layer member functions (source lines 156–459) -/

/-- stored (biased) exponent field: `(bits_ & exp_mask) >> exp_shift`. -/
def expField (F : Fmt) (b : ℕ) : ℕ := b / 2^F.p % 2^F.ew

/-- `exponent()`: `(int)((bits_ & exp_mask) >> exp_shift) - exp_bias`. -/
def exponent (F : Fmt) (b : ℕ) : ℤ := (expField F b : ℤ) - F.bias

/-- `significand()`: `bits_ & sig_mask`. -/
def significand (F : Fmt) (b : ℕ) : ℕ := b % 2^F.p

/-- sign bit of the pattern. -/
def signField (F : Fmt) (b : ℕ) : ℕ := b / 2^F.width % 2

/-- the `data(int exp, bits sig)` union constructor (source lines 254–257 /
406–409): `((bits)(exp + exp_bias) << exp_shift) & exp_mask | (sig & sig_mask)`.
The cast-shift-mask chain keeps the low `ew` bits of `exp + exp_bias` in
two's complement, i.e. `(exp + bias).emod 2^ew`; the sign bit is not part
of either mask, so it is always built as `0`. -/
def dataOf (F : Fmt) (exp : ℤ) (sig : ℕ) : ℕ :=
  ((exp + F.bias).emod (2^F.ew)).toNat * 2^F.p + sig % 2^F.p

/-- `min_explicit_exponent<T>` = `numeric_limits<T>::min_exponent - 1`
(−126 / −1022). -/
def minExplicit (F : Fmt) : ℤ := 1 - F.bias

/-- `fractional_digits<T>` = `numeric_limits<T>::digits - 1` (23 / 52). -/
def fractionalDigits (F : Fmt) : ℤ := F.p

/-- `min_implicit_exponent<T>` = `min_explicit_exponent - fractional_digits`
(−149 / −1074). -/
def minImplicit (F : Fmt) : ℤ := minExplicit F - fractionalDigits F

/-- `fractional_precision<T, N>` = `fractional_digits<T> - N`. -/
def fractionalPrecision (F : Fmt) (N : ℕ) : ℤ := fractionalDigits F - N

/-- `exponent_limit<T, N>` = `min_implicit_exponent<T> + N`. -/
def exponentLimit (F : Fmt) (N : ℕ) : ℤ := minImplicit F + N

/-- the member `exp2(int exp)` (source lines 197–209 / 349–361):

```
if (exp < min_explicit_exponent<T>)
  bits_ = sig_integer_bit >> (min_explicit_exponent<T> - exp);
else
  bits_ = ((bits)(exp + exp_bias) << exp_shift) & exp_mask;
```

In the first branch the shift distance is `minExplicit - exp`; a distance
of the word size or more would be undefined in C++, but every call site in
this development passes `exp ≥ minImplicit`, for which the distance is at
most `p`.  In the second branch `exp + bias ≥ 1`, and the cast-shift-mask
chain wraps the field to its low `ew` bits exactly as in `dataOf`. -/
def exp2i (F : Fmt) (e : ℤ) : ℕ :=
  if e < minExplicit F then 2^F.p / 2^((minExplicit F - e).toNat)
  else (e + F.bias).toNat % 2^F.ew * 2^F.p

/-- the member `ilogb()` (source lines 211–222 / 363–374):

```
int exp = exponent();
if (exp == -exp_bias)   // denormalized
  return exp - (count_leading_zeros(bits_ & sig_mask) - sig_offset);
else
  return exp;
```
-/
def ilogb (F : Fmt) (b : ℕ) : Option ℤ :=
  if exponent F b = -F.bias then
    (F.clz (significand F b)).map
      (fun c : ℕ => exponent F b - ((c : ℤ) - (F.sigOffset : ℤ)))
  else some (exponent F b)

/-- `ilog2<T>` specialization = `representation<T>{x}.ilogb()`
(source lines 300–304 / 453–457). -/
def ilog2 (F : Fmt) (b : ℕ) : Option ℤ := ilogb F b

/-! ## IEEE-754 value semantics of the host platform

The comparator uses the platform's float operations `==`, `<`, `<=`,
`std::abs`, `std::max`, and subtraction (which rounds to nearest, ties to
even).  These are not code of the header; they are modelled here by their
IEEE-754 semantics, expressed on the scaled integer significance `ival`. -/

/-- NaN: all-ones exponent field with nonzero significand field. -/
def isNan (F : Fmt) (b : ℕ) : Bool :=
  expField F b == F.emaxField && significand F b != 0

/-- infinity: all-ones exponent field with zero significand field. -/
def isInf (F : Fmt) (b : ℕ) : Bool :=
  expField F b == F.emaxField && significand F b == 0

/-- finite (normal, subnormal or zero): exponent field below all-ones. -/
def isFinite (F : Fmt) (b : ℕ) : Bool := expField F b != F.emaxField

/-- magnitude of a finite pattern in units of `2^(-scale)`:
subnormal (zero exponent field) patterns denote `sig · 2^(1 - bias - p)`,
normal patterns `(2^p + sig) · 2^(e - bias - p)`; both equal
`natMag · 2^(-scale)`. -/
def natMag (F : Fmt) (b : ℕ) : ℕ :=
  if expField F b = 0 then significand F b
  else (2^F.p + significand F b) * 2^(expField F b - 1)

/-- signed integer significance of a finite pattern: its exact value is
`ival · 2^(-scale)`. -/
def ival (F : Fmt) (b : ℕ) : ℤ :=
  (if signField F b = 1 then -1 else 1) * natMag F b

/-- bit pattern of `+∞`. -/
def infBits (F : Fmt) : ℕ := F.emaxField * 2^F.p

/-- a canonical quiet-NaN pattern. -/
def nanBits (F : Fmt) : ℕ := F.emaxField * 2^F.p + 2^(F.p - 1)

/-- IEEE `==`: never true for NaN, true for two infinities of equal sign,
and exact value equality for finite operands (`+0 == -0` holds since both
have `ival = 0`). -/
def feq (F : Fmt) (a b : ℕ) : Bool :=
  if isNan F a || isNan F b then false
  else if isInf F a || isInf F b then
    isInf F a && isInf F b && (signField F a == signField F b)
  else ival F a == ival F b

/-- IEEE `<=`: false on NaN; `-∞` is below and `+∞` above everything. -/
def fle (F : Fmt) (a b : ℕ) : Bool :=
  !(isNan F a) && !(isNan F b) &&
    ((isInf F a && signField F a == 1) ||
     (isInf F b && signField F b == 0) ||
     (isFinite F a && isFinite F b && ival F a ≤ ival F b))

/-- IEEE `<`: false on NaN; strict version of `fle`. -/
def flt (F : Fmt) (a b : ℕ) : Bool :=
  !(isNan F a) && !(isNan F b) &&
    ((isFinite F a && isFinite F b && ival F a < ival F b) ||
     (isInf F a && signField F a == 1 && !(isInf F b && signField F b == 1)) ||
     (isInf F b && signField F b == 0 && !(isInf F a && signField F a == 0)))

/-- `std::abs` on a float: clears the sign bit (also discards any garbage
above the word). -/
def fabs (F : Fmt) (b : ℕ) : ℕ := b % 2^F.width

/-- `std::max(a, b)` = `(a < b) ? b : a`. -/
def fmaxStd (F : Fmt) (a b : ℕ) : ℕ := if flt F a b then b else a

/-- Number of low-order bits of a positive scaled magnitude `n` that do
not fit in the significand: the leading bit of `n` sits at position
`bitlen n - 1`, and positions strictly below `bitlen n - 1 - p` must be
rounded away (`0` when `n` is in the subnormal range). -/
def roundShift (F : Fmt) (n : ℕ) : ℕ := bitlen n - 1 - F.p

/-- The mantissa of `n` rounded to nearest (ties to even): the quotient by
`2^roundShift`, incremented when the discarded remainder exceeds half, or
equals half with an odd quotient. -/
def roundQ (F : Fmt) (n : ℕ) : ℕ :=
  if 2 * (n % 2 ^ roundShift F n) > 2 ^ roundShift F n
      ∨ (2 * (n % 2 ^ roundShift F n) = 2 ^ roundShift F n
         ∧ n / 2 ^ roundShift F n % 2 = 1)
  then n / 2 ^ roundShift F n + 1
  else n / 2 ^ roundShift F n

/-- Round a positive real `n · 2^(-scale)` (`n : ℕ` exact) to the nearest
representable magnitude of the format, ties to even, overflowing to `+∞`.
When the rounded mantissa carries into the next binade
(`roundQ = 2^(p+1)`) the mantissa becomes `2^p` with the shift increased
by one; the result is subnormal exactly when the final mantissa is below
`2^p`, and overflows to infinity when its biased exponent
(`shift + 1`, or `shift + 2` after a carry) reaches the all-ones field. -/
def roundMag (F : Fmt) (n : ℕ) : ℕ :=
  if roundQ F n = 2 ^ (F.p + 1) then
    if 2 ^ F.ew ≤ roundShift F n + 3 then infBits F
    else (roundShift F n + 2) * 2 ^ F.p
  else
    if roundQ F n < 2 ^ F.p then roundQ F n
    else if 2 ^ F.ew ≤ roundShift F n + 2 then infBits F
    else (roundShift F n + 1) * 2 ^ F.p + (roundQ F n - 2 ^ F.p)

/-- IEEE subtraction `a - b` (round to nearest, ties to even).  For finite
operands the exact difference is the integer `ival a - ival b` on the
`2^(-scale)` grid, which `roundMag` rounds; an exact zero difference
returns `+0`.  Non-finite operands follow the IEEE special cases (none of
them is reachable from the comparator, which subtracts only after its
finiteness guard). -/
def fsub (F : Fmt) (a b : ℕ) : ℕ :=
  if isNan F a || isNan F b then nanBits F
  else if isInf F a && isInf F b then
    if signField F a == signField F b then nanBits F else a % 2^(F.width + 1)
  else if isInf F a then a % 2^(F.width + 1)
  else if isInf F b then (1 - signField F b) * 2^F.width + infBits F
  else
    let d := ival F a - ival F b
    if d = 0 then 0
    else if 0 < d then roundMag F d.toNat
    else 2^F.width + roundMag F (-d).toNat

/-! ## Scaling layer and comparator (source lines 640–803) -/

/-- free function `ulp` (source lines 640–651):
`isinf(x) || isnan(x) → 0`, else
`exp2i(std::max(ilog2(x) - fractional_precision<T,0>, exponent_limit<T,0>))`. -/
def ulpFree (F : Fmt) (x : ℕ) : Option ℕ :=
  if isInf F x || isNan F x then some 0
  else (ilog2 F x).map fun l =>
    exp2i F (max (l - fractionalPrecision F 0) (exponentLimit F 0))

/-- free function `margin<N>` (source lines 653–664): as `ulp` with the
`⟨T, N⟩` constants. -/
def marginFree (F : Fmt) (N : ℕ) (x : ℕ) : Option ℕ :=
  if isInf F x || isNan F x then some 0
  else (ilog2 F x).map fun l =>
    exp2i F (max (l - fractionalPrecision F N) (exponentLimit F N))

/-- private `proximal<N>::_ulp` (source lines 671–676): the unguarded
formula, with the max written as a conditional. -/
def pulpPriv (F : Fmt) (x : ℕ) : Option ℕ :=
  (ilog2 F x).map fun l =>
    exp2i F (if l - fractionalPrecision F 0 > exponentLimit F 0
             then l - fractionalPrecision F 0 else exponentLimit F 0)

/-- private `proximal<N>::_margin` (source lines 678–683). -/
def pmarginPriv (F : Fmt) (N : ℕ) (x : ℕ) : Option ℕ :=
  (ilog2 F x).map fun l =>
    exp2i F (if l - fractionalPrecision F N > exponentLimit F N
             then l - fractionalPrecision F N else exponentLimit F N)

/-- private `proximal<N>::_within_margin` (source lines 685–698):

```
if (a == b) return true;
if (isinf(a) || isinf(b) || isnan(a) || isnan(b)) return false;
return std::abs(a - b) <= _margin(std::max(std::abs(a), std::abs(b)));
```
-/
def withinMargin (F : Fmt) (N : ℕ) (a b : ℕ) : Option Bool :=
  if feq F a b then some true
  else if isInf F a || isInf F b || isNan F a || isNan F b then some false
  else (pmarginPriv F N (fmaxStd F (fabs F a) (fabs F b))).map fun m =>
    fle F (fabs F (fsub F a b)) m

/-- `proximal<N>::operator()` (source lines 780–793) forwards to
`_within_margin`. -/
def proximalCmp (F : Fmt) (N : ℕ) (a b : ℕ) : Option Bool := withinMargin F N a b

/-- member `proximal<N>::ulp` (source lines 702–739): guards inf/NaN, then
`x == 0.0`, else `_ulp(x)`.  The class parameter `N` does not enter (the
member uses the `⟨T, 0⟩` constants). -/
def proximalUlp (F : Fmt) (_N : ℕ) (x : ℕ) : Option ℕ :=
  if isInf F x || isNan F x then some 0
  else if feq F x 0 then some (exp2i F (exponentLimit F 0))
  else pulpPriv F x

/-- member `proximal<N>::margin` (source lines 741–778). -/
def proximalMargin (F : Fmt) (N : ℕ) (x : ℕ) : Option ℕ :=
  if isInf F x || isNan F x then some 0
  else if feq F x 0 then some (exp2i F (exponentLimit F N))
  else pmarginPriv F N x

/-! ## Spec-side formulation of the comparator's three-step precedence

Used by the C1 refinement theorem: a second definition of the comparator
that follows the spec's words (§4.3), to be compared with `withinMargin`
translated from the source. -/

/-- IEEE value equality as the spec describes step 1: never true when an
operand is NaN; two infinities are equal iff their signs agree; finite
operands are equal iff they denote the same value (`+0 == -0` included). -/
def ieeeEq (F : Fmt) (a b : ℕ) : Bool :=
  !(isNan F a) && !(isNan F b) &&
    ((isInf F a && isInf F b && (signField F a == signField F b)) ||
     (isFinite F a && isFinite F b && ival F a == ival F b))

/-- The spec's three-step precedence (§4.3): step 1 IEEE equality → true;
step 2 either operand infinite or NaN → false; step 3 true iff
`|a − b| ≤ margin<N>(max(|a|, |b|))` with the free `margin` function and
the margin computed from the larger-magnitude operand. -/
def specThreeStep (F : Fmt) (N : ℕ) (a b : ℕ) : Option Bool :=
  if ieeeEq F a b then some true
  else if !(isFinite F a) || !(isFinite F b) then some false
  else (marginFree F N (fmaxStd F (fabs F a) (fabs F b))).map fun m =>
    fle F (fabs F (fsub F a b)) m

/-! ## The generic fallback implementations (source lines 41–69)

The non-specialized templates delegate to the C library:
`exp2i<T>(exp) = exp2(static_cast<T>(exp))` and `ilog2<T>(x) = ilogb(x)`.
These library functions are not code of the repository; they are modelled
by their C-standard semantics: `exp2` correctly rounded (exact whenever
`2^exp` is representable), `ilogb` returning `⌊log₂|x|⌋` for finite
nonzero `x` and an implementation-defined constant (`FP_ILOGB0`,
`INT_MAX`, `FP_ILOGBNAN` — modelled as `none`) otherwise. -/

/-- generic `exp2i<T>` = library `exp2` on an integral argument, correctly
rounded.  For `e < -scale` the exact value `2^e` is at most half the
smallest subnormal, and rounding to nearest (ties to even) yields `+0`. -/
def genExp2i (F : Fmt) (e : ℤ) : ℕ :=
  if -(F.scale : ℤ) ≤ e then roundMag F (2^((e + F.scale).toNat)) else 0

/-- generic `ilog2<T>` = library `ilogb`: for a finite nonzero pattern, the
floor base-2 logarithm of the magnitude `natMag · 2^(-scale)`, which is
`bitlen natMag - 1 - scale`. -/
def genIlog2 (F : Fmt) (b : ℕ) : Option ℤ :=
  if isFinite F b && natMag F b != 0 then
    some ((bitlen (natMag F b) : ℤ) - 1 - F.scale)
  else none

/-- `_margin` (source lines 678–683) as compiled against the generic
`exp2i` / `ilog2` templates. -/
def genMarginPriv (F : Fmt) (N : ℕ) (x : ℕ) : Option ℕ :=
  (genIlog2 F x).map fun l =>
    genExp2i F (if l - fractionalPrecision F N > exponentLimit F N
                then l - fractionalPrecision F N else exponentLimit F N)

/-- `_within_margin` (source lines 685–698) as compiled against the
generic `exp2i` / `ilog2` templates. -/
def genWithinMargin (F : Fmt) (N : ℕ) (a b : ℕ) : Option Bool :=
  if feq F a b then some true
  else if isInf F a || isInf F b || isNan F a || isNan F b then some false
  else (genMarginPriv F N (fmaxStd F (fabs F a) (fabs F b))).map fun m =>
    fle F (fabs F (fsub F a b)) m

-- sanity checks of the embedding on the constants of the two formats
example : floatFmt.bias = 127 ∧ doubleFmt.bias = 1023 := by decide
example : floatFmt.scale = 149 ∧ doubleFmt.scale = 1074 := by decide
example : minExplicit floatFmt = -126 ∧ minImplicit floatFmt = -149 := by decide
example : minExplicit doubleFmt = -1022 ∧ minImplicit doubleFmt = -1074 := by decide
example : dataOf floatFmt 0 0 = 0x3F800000 := by decide
example : dataOf doubleFmt 0 0 = 0x3FF0000000000000 := by decide
example : exp2i floatFmt (-149) = 1 ∧ exp2i floatFmt (-126) = 0x00800000 := by decide
example : exp2i floatFmt 128 = 0x7F800000 ∧ exp2i floatFmt 129 = 0 := by decide
example : clz64 0 = some 64 ∧ clz64 1 = none ∧ clz64 (2^40) = none := by decide
example : clz64 (2^32 + 1) = some 63 := by decide

-- smoke tests: the doctest subcases of test.cpp, evaluated in the model
example : withinMargin floatFmt 0 (dataOf floatFmt 0 0) (dataOf floatFmt 0 1) = some true := by decide
example : withinMargin floatFmt 0 (dataOf floatFmt 0 0) (dataOf floatFmt 0 2) = some false := by decide
example : withinMargin doubleFmt 1 (dataOf doubleFmt 0 0) (dataOf doubleFmt 0 2) = some true := by decide
example : withinMargin doubleFmt 1 (dataOf doubleFmt 0 0) (dataOf doubleFmt 0 3) = some false := by decide
example : withinMargin doubleFmt 0 (dataOf doubleFmt 0 0) (dataOf doubleFmt 0 2) = some false := by decide
-- signed zeros, infinities, NaN
example : withinMargin floatFmt 0 0 0x80000000 = some true := by decide
example : withinMargin floatFmt 3 0x7F800000 0x7F800000 = some true := by decide
example : withinMargin floatFmt 3 0x7F800000 0xFF800000 = some false := by decide
example : withinMargin floatFmt 3 (nanBits floatFmt) (nanBits floatFmt) = some false := by decide
-- the double subnormal path is undefined (clz64 feeds a zero word to the builtin)
example : withinMargin doubleFmt 0 1 2 = none := by decide
-- N-overflow behavior of the margin
example : marginFree floatFmt 152 0x3F800000 = some 0 := by decide
example : withinMargin floatFmt 24 0x7F000000 0x7E800000 = some true := by decide
example : withinMargin floatFmt 25 0x7F000000 0x7E800000 = some false := by decide

/-! ## Facts about `bitlen` -/

theorem bitlenAux_zero (f : ℕ) : bitlenAux f 0 = 0 := by
  cases f <;> simp [bitlenAux]

theorem bitlenAux_spec (f : ℕ) :
    ∀ n, n ≤ f → n ≠ 0 → 2 ^ (bitlenAux f n - 1) ≤ n ∧ n < 2 ^ bitlenAux f n := by
  induction f with
  | zero => intro n hn h0; omega
  | succ f ih =>
    intro n hn h0
    simp only [bitlenAux, h0, if_false]
    by_cases h1 : n / 2 = 0
    · have hn1 : n = 1 := by omega
      subst hn1
      rw [show (1 : ℕ) / 2 = 0 from rfl, bitlenAux_zero]
      norm_num
    · have hle : n / 2 ≤ f := by omega
      obtain ⟨h2, h3⟩ := ih (n / 2) hle h1
      set k := bitlenAux f (n / 2) with hk
      have hk1 : 1 ≤ k := by
        rcases Nat.eq_zero_or_pos k with h | h
        · rw [h] at h3; simp at h3; omega
        · exact h
      have p1 : 2 ^ k = 2 ^ (k - 1) * 2 := by
        conv_lhs => rw [show k = (k - 1) + 1 by omega]
        rw [pow_succ]
      have p2 : 2 ^ (k + 1) = 2 ^ k * 2 := pow_succ 2 k
      have hdm : 2 * (n / 2) + n % 2 = n := Nat.div_add_mod n 2
      have hm : n % 2 < 2 := Nat.mod_lt n (by norm_num)
      constructor
      · simp only [Nat.add_sub_cancel]
        omega
      · omega

theorem bitlen_spec (n : ℕ) (h : n ≠ 0) :
    2 ^ (bitlen n - 1) ≤ n ∧ n < 2 ^ bitlen n :=
  bitlenAux_spec n n le_rfl h

theorem bitlen_pos (n : ℕ) (h : n ≠ 0) : 1 ≤ bitlen n := by
  rcases Nat.eq_zero_or_pos (bitlen n) with h' | h'
  · have := (bitlen_spec n h).2; rw [h'] at this; simp at this; omega
  · exact h'

theorem bitlen_le_of_lt (n k : ℕ) (h : n < 2 ^ k) : bitlen n ≤ k := by
  by_cases h0 : n = 0
  · subst h0; rw [show bitlen 0 = 0 from rfl]; omega
  · obtain ⟨h1, _⟩ := bitlen_spec n h0
    have : 2 ^ (bitlen n - 1) < 2 ^ k := lt_of_le_of_lt h1 h
    have := (Nat.pow_lt_pow_iff_right (by norm_num : 1 < 2)).mp this
    omega

theorem bitlen_eq (n L : ℕ) (h1 : 2 ^ L ≤ n) (h2 : n < 2 ^ (L + 1)) :
    bitlen n = L + 1 := by
  have h0 : n ≠ 0 := by
    have : 1 ≤ 2 ^ L := Nat.one_le_two_pow
    omega
  obtain ⟨g1, g2⟩ := bitlen_spec n h0
  have hb1 := bitlen_pos n h0
  rcases lt_trichotomy (bitlen n - 1) L with h | h | h
  · have : 2 ^ bitlen n ≤ 2 ^ L := Nat.pow_le_pow_right (by norm_num) (by omega)
    omega
  · omega
  · have : 2 ^ (L + 1) ≤ 2 ^ (bitlen n - 1) :=
      Nat.pow_le_pow_right (by norm_num) (by omega)
    omega

/-! ## Basic facts about the field extraction -/

theorem expField_lt (F : Fmt) (b : ℕ) : expField F b < 2 ^ F.ew :=
  Nat.mod_lt _ (pow_pos (by norm_num) _)

theorem significand_lt (F : Fmt) (b : ℕ) : significand F b < 2 ^ F.p :=
  Nat.mod_lt _ (pow_pos (by norm_num) _)

theorem two_pow_ew_eq (F : Fmt) : 2 ^ F.ew = 2 * 2 ^ (F.ew - 1) := by
  conv_lhs => rw [show F.ew = (F.ew - 1) + 1 by have := F.hew; omega]
  rw [pow_succ]
  ring

theorem two_le_halfpow (F : Fmt) : 2 ≤ 2 ^ (F.ew - 1) := by
  have : 2 ^ 1 ≤ 2 ^ (F.ew - 1) :=
    Nat.pow_le_pow_right (by norm_num) (by have := F.hew; omega)
  omega

theorem bias_pos (F : Fmt) : 1 ≤ F.bias := by
  rw [Fmt.bias]
  have := two_le_halfpow F
  omega

/-! ## C2: decompose / reconstruct round trip -/

/-- C2 (amended): for every finite value whose sign bit is clear,
reconstructing from the decomposed exponent and significand fields
restores the original bit pattern.  (As stated, the claim also covers
negative values; the counterexample below shows the sign bit is lost,
because neither mask of the reconstructing constructor covers it.) -/
theorem C2_round_trip_amended (F : Fmt) (b : ℕ) (hb : b < 2 ^ F.width)
    (_hfin : expField F b ≠ F.emaxField) :
    dataOf F (exponent F b) (significand F b) = b := by
  have h2 : b / 2 ^ F.p < 2 ^ F.ew := by
    apply Nat.div_lt_of_lt_mul
    calc b < 2 ^ F.width := hb
    _ = 2 ^ F.p * 2 ^ F.ew := by rw [Fmt.width, pow_add, mul_comm]
  have hef : expField F b = b / 2 ^ F.p := Nat.mod_eq_of_lt h2
  have hemod : (exponent F b + F.bias).emod ((2:ℤ) ^ F.ew) = ((b / 2 ^ F.p : ℕ) : ℤ) := by
    unfold exponent
    rw [hef]
    have hcancel : (↑(b / 2 ^ F.p) : ℤ) - F.bias + F.bias = ↑(b / 2 ^ F.p) := by ring
    rw [hcancel]
    exact Int.emod_eq_of_lt (Int.natCast_nonneg _) (by exact_mod_cast h2)
  unfold dataOf
  rw [hemod, Int.toNat_natCast]
  unfold significand
  rw [Nat.mod_mod_of_dvd _ dvd_rfl]
  exact Nat.div_add_mod' b (2 ^ F.p)

/-- C2 counterexample: the claim fails for the negative finite value
`-1.0f` (bit pattern `0xBF800000`): the reconstructing constructor keeps
only the exponent and significand masks, so the round trip returns the bit
pattern of `+1.0f`. -/
theorem C2_round_trip_counterexample :
    dataOf floatFmt (exponent floatFmt 0xBF800000) (significand floatFmt 0xBF800000) ≠
      0xBF800000 := by decide

/-- Witness for C2 at the concrete single-precision pattern of `+1.0f`. -/
theorem C2_round_trip_witness :
    dataOf floatFmt (exponent floatFmt 0x3F800000) (significand floatFmt 0x3F800000) =
      0x3F800000 :=
  C2_round_trip_amended floatFmt 0x3F800000 (by decide) (by decide)

/-! ## C4: leading-zero count on a zero word -/

/-- C4: the zero-input convention holds for both overloads
(`clz32 0 = 32`, `clz64 0 = some 64`), but the second half of the claim is
false of the code: for the nonzero input `u = 1` the 64-bit overload takes
its `else` branch and applies the raw builtin to `words[1]`, which that
branch guarantees to be zero (undefined behaviour, `none` in the model);
for `u = 2^40` it applies the raw builtin to the zero low word. -/
theorem C4_clz_zero_paths :
    clz32 0 = 32 ∧ clz64 0 = some 64 ∧ clz64 1 = none ∧ clz64 (2^40) = none := by
  decide

/-! ## C3: ilogb on subnormal inputs -/

/-- Unfolding of the single-precision `ilogb` on the subnormal branch. -/
theorem ilogb_float_subnormal (b : ℕ) (h0 : expField floatFmt b = 0) :
    ilogb floatFmt b =
      some (-127 - ((clz32 (significand floatFmt b) : ℤ) - 9)) := by
  have he : exponent floatFmt b = -127 := by
    unfold exponent
    rw [h0]
    decide
  unfold ilogb
  rw [he, if_pos (by decide : (-127:ℤ) = -floatFmt.bias)]
  rfl

/-- C3: on single precision the claim is true — for every subnormal
pattern (zero exponent field, nonzero significand field) `ilogb` returns
the true unbiased exponent `l` of the leading set bit: the value of the
pattern is `sig · 2^(-149)` and `2^(l+149) ≤ sig < 2^(l+150)`.  On double
precision the code is wrong: at the failing input `0x0000000000000001`
(the smallest positive subnormal, true exponent −1074) the subnormal
branch feeds the zero word `words[1]` to the raw builtin, so the
computation is undefined (`none`). -/
theorem C3_ilogb_subnormal_exponent :
    (∀ b : ℕ, expField floatFmt b = 0 → significand floatFmt b ≠ 0 →
      ∃ l : ℤ, ilogb floatFmt b = some l ∧ -149 ≤ l ∧
        2 ^ (l + 149).toNat ≤ significand floatFmt b ∧
        significand floatFmt b < 2 ^ ((l + 149).toNat + 1))
    ∧ ilogb doubleFmt 1 = none := by
  constructor
  · intro b h0 hs
    have hslt : significand floatFmt b < 2 ^ 23 := significand_lt floatFmt b
    have hble : bitlen (significand floatFmt b) ≤ 23 := bitlen_le_of_lt _ _ hslt
    have hb1 : 1 ≤ bitlen (significand floatFmt b) := bitlen_pos _ hs
    obtain ⟨hlow, hhigh⟩ := bitlen_spec _ hs
    refine ⟨(bitlen (significand floatFmt b) : ℤ) - 150, ?_, by omega, ?_, ?_⟩
    · rw [ilogb_float_subnormal b h0]
      unfold clz32
      rw [if_neg hs]
      congr 1
      have : ((32 - bitlen (significand floatFmt b) : ℕ) : ℤ)
          = 32 - (bitlen (significand floatFmt b) : ℤ) := by omega
      rw [this]
      ring
    · have : ((bitlen (significand floatFmt b) : ℤ) - 150 + 149).toNat
          = bitlen (significand floatFmt b) - 1 := by omega
      rw [this]
      exact hlow
    · have : ((bitlen (significand floatFmt b) : ℤ) - 150 + 149).toNat + 1
          = bitlen (significand floatFmt b) := by omega
      rw [this]
      exact hhigh
  · decide

/-! ## Field preservation under `fabs`, and classification lemmas -/

theorem expField_fabs (F : Fmt) (b : ℕ) : expField F (fabs F b) = expField F b := by
  unfold expField fabs Fmt.width
  rw [pow_add, mul_comm (2 ^ F.ew) (2 ^ F.p), Nat.mod_mul_right_div_self,
    Nat.mod_mod_of_dvd _ dvd_rfl]

theorem significand_fabs (F : Fmt) (b : ℕ) :
    significand F (fabs F b) = significand F b := by
  unfold significand fabs Fmt.width
  rw [pow_add, Nat.mod_mod_of_dvd _ (dvd_mul_left _ _)]

theorem signField_fabs (F : Fmt) (b : ℕ) : signField F (fabs F b) = 0 := by
  unfold signField fabs
  rw [Nat.div_eq_of_lt (Nat.mod_lt _ (pow_pos (by norm_num) _))]

theorem isNan_fabs (F : Fmt) (b : ℕ) : isNan F (fabs F b) = isNan F b := by
  unfold isNan
  rw [expField_fabs, significand_fabs]

theorem isInf_fabs (F : Fmt) (b : ℕ) : isInf F (fabs F b) = isInf F b := by
  unfold isInf
  rw [expField_fabs, significand_fabs]

theorem isFinite_fabs (F : Fmt) (b : ℕ) : isFinite F (fabs F b) = isFinite F b := by
  unfold isFinite
  rw [expField_fabs]

theorem natMag_fabs (F : Fmt) (b : ℕ) : natMag F (fabs F b) = natMag F b := by
  unfold natMag
  rw [expField_fabs, significand_fabs]

theorem ival_fabs (F : Fmt) (b : ℕ) : ival F (fabs F b) = (natMag F b : ℤ) := by
  unfold ival
  rw [signField_fabs, natMag_fabs]
  norm_num

/-- the second guard of `_within_margin` and the spec's "either operand is
infinite or NaN" agree: a pattern is non-finite exactly when it is an
infinity or a NaN. -/
theorem not_isFinite_eq (F : Fmt) (b : ℕ) :
    (!(isFinite F b)) = (isInf F b || isNan F b) := by
  unfold isFinite isInf isNan
  by_cases h : expField F b = F.emaxField <;>
    by_cases hs : significand F b = 0 <;>
      (rw [Bool.eq_iff_iff]; simp [h, hs])

theorem isInf_eq_false_of_finite (F : Fmt) (b : ℕ) (h : isFinite F b = true) :
    isInf F b = false := by
  unfold isFinite at h
  unfold isInf
  simp only [ne_eq, bne_iff_ne] at h
  simp [h]

theorem isNan_eq_false_of_finite (F : Fmt) (b : ℕ) (h : isFinite F b = true) :
    isNan F b = false := by
  unfold isFinite at h
  unfold isNan
  simp only [ne_eq, bne_iff_ne] at h
  simp [h]

theorem fmaxStd_or (F : Fmt) (x y : ℕ) :
    fmaxStd F x y = x ∨ fmaxStd F x y = y := by
  unfold fmaxStd
  split
  · right; rfl
  · left; rfl

theorem isFinite_fmaxStd (F : Fmt) (x y : ℕ) (hx : isFinite F x = true)
    (hy : isFinite F y = true) : isFinite F (fmaxStd F x y) = true := by
  rcases fmaxStd_or F x y with h | h <;> rw [h] <;> assumption

/-! ## C1: the comparator's three-step precedence -/

theorem feq_eq_ieeeEq (F : Fmt) (a b : ℕ) : feq F a b = ieeeEq F a b := by
  unfold feq ieeeEq isFinite isInf isNan
  by_cases ha : expField F a = F.emaxField <;>
    by_cases hb : expField F b = F.emaxField <;>
      by_cases hsa : significand F a = 0 <;>
        by_cases hsb : significand F b = 0 <;>
          (rw [Bool.eq_iff_iff]; simp [ha, hb, hsa, hsb])

theorem ternary_max (x y : ℤ) : (if x > y then x else y) = max x y := by
  rcases le_or_lt x y with h | h
  · rw [if_neg (not_lt.mpr h), max_eq_right h]
  · rw [if_pos h, max_eq_left h.le]

/-- the private `_margin` with its conditional written as `max`. -/
theorem pmarginPriv_eq (F : Fmt) (N : ℕ) (x : ℕ) :
    pmarginPriv F N x = (ilog2 F x).map fun l =>
      exp2i F (max (l - fractionalPrecision F N) (exponentLimit F N)) := by
  unfold pmarginPriv
  congr 1
  funext l
  congr 1
  split
  · exact (max_eq_left (le_of_lt (by assumption))).symm
  · exact (max_eq_right (not_lt.mp (by assumption))).symm

theorem marginFree_of_finite (F : Fmt) (N : ℕ) (x : ℕ)
    (hx : isFinite F x = true) : marginFree F N x = pmarginPriv F N x := by
  unfold marginFree pmarginPriv
  rw [isInf_eq_false_of_finite F x hx, isNan_eq_false_of_finite F x hx]
  simp only [Bool.or_self, Bool.false_eq_true, if_false]
  congr 1
  funext l
  rw [ternary_max]

/-- C1: for every tolerance `N` and every pair of same-format operands the
comparator equals the spec's three-step precedence: IEEE equality → true;
else infinite-or-NaN operand → false; else `|a − b| ≤ margin<N>` of the
larger-magnitude operand (the free `margin` function). -/
theorem C1_three_step_precedence (F : Fmt) (N : ℕ) (a b : ℕ) :
    proximalCmp F N a b = specThreeStep F N a b := by
  unfold proximalCmp withinMargin specThreeStep
  rw [feq_eq_ieeeEq]
  cases hE : ieeeEq F a b
  · simp only [Bool.false_eq_true, if_false]
    have hguard : (isInf F a || isInf F b || isNan F a || isNan F b)
        = (!(isFinite F a) || !(isFinite F b)) := by
      rw [not_isFinite_eq, not_isFinite_eq]
      cases isInf F a <;> cases isInf F b <;> cases isNan F a <;> cases isNan F b <;> rfl
    rw [hguard]
    cases hG : (!(isFinite F a) || !(isFinite F b))
    · simp only [Bool.false_eq_true, if_false]
      have hfa : isFinite F a = true := by
        cases h : isFinite F a
        · rw [h] at hG; simp at hG
        · rfl
      have hfb : isFinite F b = true := by
        cases h : isFinite F b
        · rw [h] at hG; simp at hG
        · rfl
      rw [marginFree_of_finite]
      apply isFinite_fmaxStd
      · rw [isFinite_fabs]; exact hfa
      · rw [isFinite_fabs]; exact hfb
    · rfl
  · rfl

/-! ## C9: the boundary-precision cases -/

/-- C9: the comparator decides exactly at the `2^N`-ulp boundary in the
five stated cases (single precision `N = 0` at 1 and 2 ulps from `1.0f`;
double precision `N = 1` at 2 and 3 ulps and `N = 0` at 2 ulps from
`1.0`), with operands built by the `(exponent, significand)` constructor
exactly as in the doctest cases. -/
theorem C9_boundary_precision :
    proximalCmp floatFmt 0 (dataOf floatFmt 0 0) (dataOf floatFmt 0 0x00000001)
        = some true ∧
    proximalCmp floatFmt 0 (dataOf floatFmt 0 0) (dataOf floatFmt 0 0x00000002)
        = some false ∧
    proximalCmp doubleFmt 1 (dataOf doubleFmt 0 0)
        (dataOf doubleFmt 0 0x0000000000000002) = some true ∧
    proximalCmp doubleFmt 1 (dataOf doubleFmt 0 0)
        (dataOf doubleFmt 0 0x0000000000000003) = some false ∧
    proximalCmp doubleFmt 0 (dataOf doubleFmt 0 0)
        (dataOf doubleFmt 0 0x0000000000000002) = some false := by
  decide

/-! ## C6: ulp at infinite, NaN and zero inputs -/

theorem expField_zero_pattern (F : Fmt) : expField F 0 = 0 := by
  unfold expField
  simp

theorem significand_zero_pattern (F : Fmt) : significand F 0 = 0 := by
  unfold significand
  simp

theorem natMag_zero_pattern (F : Fmt) : natMag F 0 = 0 := by
  unfold natMag
  rw [if_pos (expField_zero_pattern F)]
  exact significand_zero_pattern F

theorem natMag_eq_zero (F : Fmt) (b : ℕ) (h : natMag F b = 0) :
    expField F b = 0 ∧ significand F b = 0 := by
  unfold natMag at h
  by_cases he : expField F b = 0
  · rw [if_pos he] at h
    exact ⟨he, h⟩
  · rw [if_neg he] at h
    rcases Nat.mul_eq_zero.mp h with h' | h'
    · have := pow_pos (show 0 < 2 by norm_num) F.p
      omega
    · have := pow_pos (show 0 < 2 by norm_num) (expField F b - 1)
      omega

theorem natMag_eq_zero_of_ival (F : Fmt) (b : ℕ) (h : ival F b = 0) :
    natMag F b = 0 := by
  unfold ival at h
  rcases eq_or_ne (signField F b) 1 with hs | hs
  · rw [if_pos hs] at h
    omega
  · rw [if_neg hs] at h
    omega

theorem emaxField_pos (F : Fmt) : 3 ≤ F.emaxField := by
  unfold Fmt.emaxField
  have : 2 ^ 2 ≤ 2 ^ F.ew := Nat.pow_le_pow_right (by norm_num) F.hew
  omega

theorem isInf_eq_false_of_expField_zero (F : Fmt) (b : ℕ)
    (h0 : expField F b = 0) : isInf F b = false := by
  unfold isInf
  rw [h0]
  have := emaxField_pos F
  simp
  omega

theorem isNan_eq_false_of_expField_zero (F : Fmt) (b : ℕ)
    (h0 : expField F b = 0) : isNan F b = false := by
  unfold isNan
  rw [h0]
  have := emaxField_pos F
  simp
  omega

/-- On a zero input (either sign), the free `ulp` computes the ilogb of
zero through the subnormal branch — `clz` of the all-zero significand word
returns `c0` by the guarded convention — and the exponent floor then
forces the result to `exp2i(exponent_limit)`(the smallest subnormal). -/
theorem ulpFree_zero (F : Fmt) (c0 : ℕ) (hc : F.clz 0 = some c0)
    (hoc : (F.sigOffset : ℤ) ≤ (c0 : ℤ) + 1) (b : ℕ)
    (h0 : expField F b = 0) (hs : significand F b = 0) :
    ulpFree F b = some (exp2i F (exponentLimit F 0)) := by
  unfold ulpFree
  rw [isInf_eq_false_of_expField_zero F b h0, isNan_eq_false_of_expField_zero F b h0]
  simp only [Bool.or_self, Bool.false_eq_true, if_false]
  unfold ilog2 ilogb
  have he : exponent F b = -F.bias := by
    unfold exponent
    rw [h0]
    simp
  rw [he, if_pos rfl, hs, hc]
  show some (exp2i F (max (-F.bias - ((c0 : ℤ) - (F.sigOffset : ℤ))
      - fractionalPrecision F 0) (exponentLimit F 0)))
    = some (exp2i F (exponentLimit F 0))
  have hmax : max (-F.bias - ((c0 : ℤ) - (F.sigOffset : ℤ)) - fractionalPrecision F 0)
      (exponentLimit F 0) = exponentLimit F 0 := by
    apply max_eq_right
    unfold fractionalPrecision exponentLimit minImplicit minExplicit fractionalDigits
    omega
  rw [hmax]

/-- On a zero input the member `ulp` returns `exp2i(exponent_limit)`
directly from its `x == 0.0` early return, for every `N`. -/
theorem proximalUlp_zero (F : Fmt) (b : ℕ) (N : ℕ)
    (h0 : expField F b = 0) (hs : significand F b = 0) :
    proximalUlp F N b = some (exp2i F (exponentLimit F 0)) := by
  unfold proximalUlp
  rw [isInf_eq_false_of_expField_zero F b h0, isNan_eq_false_of_expField_zero F b h0]
  have hfeq : feq F b 0 = true := by
    unfold feq
    rw [isNan_eq_false_of_expField_zero F b h0,
      isNan_eq_false_of_expField_zero F 0 (expField_zero_pattern F),
      isInf_eq_false_of_expField_zero F b h0,
      isInf_eq_false_of_expField_zero F 0 (expField_zero_pattern F)]
    have hm : natMag F b = 0 := by
      unfold natMag
      rw [if_pos h0]
      exact hs
    have hm0 : natMag F 0 = 0 := natMag_zero_pattern F
    unfold ival
    rw [hm, hm0]
    simp
  rw [hfeq]
  rfl

/-- C6: for both supported formats, `ulp` of an infinite or NaN input is
`+0` and `ulp` of a zero of either sign is `exp2i(exponent_limit)`, the
smallest positive representable magnitude (bit pattern 1, significance
`2^(-scale)`, below which no finite nonzero value exists) — for the free
function and for the comparator member at every `N`. -/
theorem C6_ulp_special_values :
    (∀ (F : Fmt) (b : ℕ), (isInf F b || isNan F b) = true →
      ulpFree F b = some 0 ∧ ∀ N : ℕ, proximalUlp F N b = some 0) ∧
    (∀ b : ℕ, isFinite floatFmt b = true → ival floatFmt b = 0 →
      ulpFree floatFmt b = some (exp2i floatFmt (exponentLimit floatFmt 0)) ∧
      ∀ N : ℕ, proximalUlp floatFmt N b
        = some (exp2i floatFmt (exponentLimit floatFmt 0))) ∧
    (∀ b : ℕ, isFinite doubleFmt b = true → ival doubleFmt b = 0 →
      ulpFree doubleFmt b = some (exp2i doubleFmt (exponentLimit doubleFmt 0)) ∧
      ∀ N : ℕ, proximalUlp doubleFmt N b
        = some (exp2i doubleFmt (exponentLimit doubleFmt 0))) ∧
    exp2i floatFmt (exponentLimit floatFmt 0) = 1 ∧
    exp2i doubleFmt (exponentLimit doubleFmt 0) = 1 ∧
    ival floatFmt 1 = 1 ∧ ival doubleFmt 1 = 1 ∧
    (∀ b : ℕ, ival floatFmt b ≠ 0 → 1 ≤ (ival floatFmt b).natAbs) ∧
    (∀ b : ℕ, ival doubleFmt b ≠ 0 → 1 ≤ (ival doubleFmt b).natAbs) := by
  refine ⟨?_, ?_, ?_, by decide, by decide, by decide, by decide, ?_, ?_⟩
  · intro F b h
    constructor
    · unfold ulpFree
      rw [h]
      rfl
    · intro N
      unfold proximalUlp
      rw [h]
      rfl
  · intro b _hfin hz
    obtain ⟨h0, hs⟩ := natMag_eq_zero floatFmt b (natMag_eq_zero_of_ival floatFmt b hz)
    exact ⟨ulpFree_zero floatFmt 32 rfl (by decide) b h0 hs,
      fun N => proximalUlp_zero floatFmt b N h0 hs⟩
  · intro b _hfin hz
    obtain ⟨h0, hs⟩ := natMag_eq_zero doubleFmt b (natMag_eq_zero_of_ival doubleFmt b hz)
    exact ⟨ulpFree_zero doubleFmt 64 rfl (by decide) b h0 hs,
      fun N => proximalUlp_zero doubleFmt b N h0 hs⟩
  · intro b h
    have := Int.natAbs_eq_zero (a := ival floatFmt b)
    omega
  · intro b h
    have := Int.natAbs_eq_zero (a := ival doubleFmt b)
    omega

/-! ## Values of `exp2i` on the representable exponent range -/

theorem scale_cast (F : Fmt) : (F.scale : ℤ) = (F.p : ℤ) + F.bias - 1 := by
  have := two_le_halfpow F
  unfold Fmt.scale Fmt.bias
  omega

theorem minImplicit_eq_neg_scale (F : Fmt) : minImplicit F = -(F.scale : ℤ) := by
  have := scale_cast F
  unfold minImplicit minExplicit fractionalDigits
  omega

theorem ival_zero_pattern (F : Fmt) : ival F 0 = 0 := by
  unfold ival
  rw [natMag_zero_pattern]
  simp

theorem exp2i_eq_pow_of_lt (F : Fmt) (k : ℤ) (h1 : minImplicit F ≤ k)
    (h2 : k < minExplicit F) :
    exp2i F k = 2 ^ ((k + F.scale).toNat) ∧ (k + F.scale).toNat < F.p := by
  have hs := scale_cast F
  have hb := bias_pos F
  unfold minImplicit minExplicit fractionalDigits at h1
  unfold minExplicit at h2
  constructor
  · unfold exp2i minExplicit
    rw [if_pos (by omega : k < 1 - F.bias)]
    rw [Nat.pow_div (by omega) (by norm_num)]
    congr 1
    omega
  · omega

theorem exp2i_eq_mul_of_ge (F : Fmt) (k : ℤ) (h1 : minExplicit F ≤ k)
    (h2 : k ≤ F.bias + 1) :
    exp2i F k = (k + F.bias).toNat * 2 ^ F.p ∧ 1 ≤ (k + F.bias).toNat ∧
      (k + F.bias).toNat ≤ F.emaxField := by
  have hb := bias_pos F
  have h2ew : 2 ^ F.ew = 2 * 2 ^ (F.ew - 1) := two_pow_ew_eq F
  unfold minExplicit at h1
  refine ⟨?_, by omega, ?_⟩
  · unfold exp2i minExplicit
    rw [if_neg (by omega)]
    congr 1
    apply Nat.mod_eq_of_lt
    unfold Fmt.bias at *
    omega
  · unfold Fmt.emaxField Fmt.bias at *
    omega

theorem ival_exp2i (F : Fmt) (k : ℤ) (h1 : minImplicit F ≤ k) (h2 : k ≤ F.bias) :
    ival F (exp2i F k) = 2 ^ ((k + F.scale).toNat) ∧
    isFinite F (exp2i F k) = true ∧ isNan F (exp2i F k) = false ∧
    signField F (exp2i F k) = 0 := by
  have hs := scale_cast F
  have hb := bias_pos F
  have hemax := emaxField_pos F
  by_cases hc : k < minExplicit F
  · obtain ⟨he, hlt⟩ := exp2i_eq_pow_of_lt F k h1 hc
    rw [he]
    have h2p : (2:ℕ) ^ (k + F.scale).toNat < 2 ^ F.p :=
      Nat.pow_lt_pow_right (by norm_num) hlt
    have hw : (2:ℕ) ^ (k + F.scale).toNat < 2 ^ F.width := by
      apply lt_of_lt_of_le h2p
      apply Nat.pow_le_pow_right (by norm_num)
      unfold Fmt.width
      omega
    have hef : expField F (2 ^ (k + F.scale).toNat) = 0 := by
      unfold expField
      rw [Nat.div_eq_of_lt h2p]
      simp
    have hsig : significand F (2 ^ (k + F.scale).toNat) = 2 ^ (k + F.scale).toNat :=
      Nat.mod_eq_of_lt h2p
    have hsf : signField F (2 ^ (k + F.scale).toNat) = 0 := by
      unfold signField
      rw [Nat.div_eq_of_lt hw]
    have hnm : natMag F (2 ^ (k + F.scale).toNat) = 2 ^ (k + F.scale).toNat := by
      unfold natMag
      rw [hef, if_pos rfl, hsig]
    refine ⟨?_, ?_, ?_, hsf⟩
    · unfold ival
      rw [hsf, hnm]
      norm_num
    · unfold isFinite
      rw [hef]
      simp
      omega
    · unfold isNan
      rw [hef]
      simp
      omega
  · push_neg at hc
    obtain ⟨he, hge1, hle⟩ := exp2i_eq_mul_of_ge F k hc (by omega)
    rw [he]
    have hE2 : (k + F.bias).toNat ≤ 2 ^ F.ew - 2 := by
      have h2ew : 2 ^ F.ew = 2 * 2 ^ (F.ew - 1) := two_pow_ew_eq F
      unfold Fmt.bias at *
      omega
    have hElt : (k + F.bias).toNat < 2 ^ F.ew := by
      unfold Fmt.emaxField at hle
      have := pow_pos (show 0 < 2 by norm_num) F.ew
      omega
    have hbits : (k + F.bias).toNat * 2 ^ F.p < 2 ^ F.width := by
      unfold Fmt.width
      rw [pow_add]
      exact Nat.mul_lt_mul_of_lt_of_le hElt le_rfl (pow_pos (by norm_num) _)
    have hef : expField F ((k + F.bias).toNat * 2 ^ F.p) = (k + F.bias).toNat := by
      unfold expField
      rw [Nat.mul_div_cancel _ (pow_pos (by norm_num) _)]
      exact Nat.mod_eq_of_lt hElt
    have hsig : significand F ((k + F.bias).toNat * 2 ^ F.p) = 0 :=
      Nat.mul_mod_left _ _
    have hsf : signField F ((k + F.bias).toNat * 2 ^ F.p) = 0 := by
      unfold signField
      rw [Nat.div_eq_of_lt hbits]
    have hnm : natMag F ((k + F.bias).toNat * 2 ^ F.p)
        = 2 ^ ((k + F.scale).toNat) := by
      unfold natMag
      rw [hef, if_neg (by omega), hsig, add_zero, ← pow_add]
      congr 1
      omega
    refine ⟨?_, ?_, ?_, hsf⟩
    · unfold ival
      rw [hsf, hnm]
      norm_num
    · unfold isFinite
      rw [hef]
      unfold Fmt.emaxField
      simp
      omega
    · unfold isNan
      rw [hef, hsig]
      simp
  -- end ival_exp2i

theorem exp2i_bias_succ (F : Fmt) : exp2i F (F.bias + 1) = infBits F := by
  have hb := bias_pos F
  obtain ⟨he, _, _⟩ := exp2i_eq_mul_of_ge F (F.bias + 1)
    (by unfold minExplicit; omega) le_rfl
  rw [he]
  unfold infBits
  congr 1
  have h2ew := two_pow_ew_eq F
  unfold Fmt.emaxField Fmt.bias at *
  omega

theorem infBits_fields (F : Fmt) :
    expField F (infBits F) = F.emaxField ∧ significand F (infBits F) = 0 ∧
    signField F (infBits F) = 0 ∧ isInf F (infBits F) = true ∧
    isNan F (infBits F) = false := by
  have hlt : F.emaxField < 2 ^ F.ew := by
    unfold Fmt.emaxField
    have := pow_pos (show 0 < 2 by norm_num) F.ew
    omega
  have hbits : F.emaxField * 2 ^ F.p < 2 ^ F.width := by
    unfold Fmt.width
    rw [pow_add]
    exact Nat.mul_lt_mul_of_lt_of_le hlt le_rfl (pow_pos (by norm_num) _)
  have hef : expField F (infBits F) = F.emaxField := by
    unfold expField infBits
    rw [Nat.mul_div_cancel _ (pow_pos (by norm_num) _)]
    exact Nat.mod_eq_of_lt hlt
  have hsig : significand F (infBits F) = 0 := Nat.mul_mod_left _ _
  have hsf : signField F (infBits F) = 0 := by
    unfold signField infBits
    rw [Nat.div_eq_of_lt hbits]
  refine ⟨hef, hsig, hsf, ?_, ?_⟩
  · unfold isInf
    rw [hef, hsig]
    simp
  · unfold isNan
    rw [hef, hsig]
    simp

/-! ## The result of `ilogb` is bounded by the maximum explicit exponent -/

theorem ilogb_le_bias (F : Fmt) (b : ℕ) (hfin : isFinite F b = true) (l : ℤ)
    (h : ilogb F b = some l) : l ≤ F.bias := by
  have hb := bias_pos F
  unfold ilogb at h
  by_cases hc : exponent F b = -F.bias
  · rw [if_pos hc] at h
    cases hclz : F.clz (significand F b) with
    | none =>
      rw [hclz] at h
      simp at h
    | some c =>
      rw [hclz] at h
      simp only [Option.map_some'] at h
      have hl := Option.some_inj.mp h
      rw [hc] at hl
      have hoffZ : (F.sigOffset : ℤ) ≤ ((2 ^ (F.ew - 1) : ℕ) : ℤ) := by
        exact_mod_cast F.hoff
      unfold Fmt.bias at *
      omega
  · rw [if_neg hc] at h
    have hl := Option.some_inj.mp h
    unfold isFinite at hfin
    simp only [bne_iff_ne, ne_eq] at hfin
    have hlt := expField_lt F b
    have h2ew := two_pow_ew_eq F
    unfold exponent Fmt.bias Fmt.emaxField at *
    omega

/-! ## Elimination and introduction for IEEE `<=` -/

theorem fle_true_elim (F : Fmt) (d m : ℕ) (hsd : signField F d = 0)
    (hm : isFinite F m = true) (h : fle F d m = true) :
    isNan F d = false ∧ isFinite F d = true ∧ ival F d ≤ ival F m := by
  unfold fle at h
  simp only [Bool.and_eq_true, Bool.or_eq_true, Bool.not_eq_true', beq_iff_eq,
    decide_eq_true_eq] at h
  obtain ⟨⟨hn1, hn2⟩, hd⟩ := h
  refine ⟨hn1, ?_⟩
  rcases hd with (⟨hinf, hsgn⟩ | ⟨hinf, hsgn⟩) | ⟨⟨hfd, hfm⟩, hiv⟩
  · omega
  · rw [isInf_eq_false_of_finite F m hm] at hinf
    exact absurd hinf (by simp)
  · exact ⟨hfd, hiv⟩

theorem fle_true_intro_fin (F : Fmt) (d m : ℕ) (hn : isNan F d = false)
    (hfd : isFinite F d = true) (hfm : isFinite F m = true)
    (hiv : ival F d ≤ ival F m) : fle F d m = true := by
  unfold fle
  rw [hn, isNan_eq_false_of_finite F m hfm]
  simp [hfd, hfm, hiv]

theorem fle_true_intro_inf (F : Fmt) (d m : ℕ) (hn : isNan F d = false)
    (hnm : isNan F m = false) (hm : isInf F m = true) (hsm : signField F m = 0) :
    fle F d m = true := by
  unfold fle
  rw [hn, hnm]
  simp [hm, hsm]

/-! ## C7: `margin<N>` scales `ulp` by `2^N` -/

theorem isFinite_of_guard_false (F : Fmt) (x : ℕ)
    (hg : (isInf F x || isNan F x) = false) : isFinite F x = true := by
  have hnf := not_isFinite_eq F x
  rw [hg] at hnf
  cases hf : isFinite F x
  · rw [hf] at hnf
    simp at hnf
  · rfl

theorem exponentLimit_zero (F : Fmt) : exponentLimit F 0 = minImplicit F := by
  unfold exponentLimit
  push_cast
  ring

/-- C7 counterexample: at single precision with `N = 152` and `x = 1.0f`
the claim fails: the margin's exponent-field arithmetic wraps
(`exp2i(129)` builds the bit pattern `+0.0f`), so `margin<152>(1.0f)` has
value `0` while `2^152 · ulp(1.0f)` is positive (values compared via the
exact scaled significance `ival`, value = `ival · 2^(-149)`). -/
theorem C7_margin_scaling_counterexample :
    ¬ ((marginFree floatFmt 152 0x3F800000).map (ival floatFmt)
        = (ulpFree floatFmt 0x3F800000).map
            (fun u => 2 ^ 152 * ival floatFmt u)) := by
  decide

/-- C7 (amended): for every input `x` of either supported format
(finite, zero, subnormal, infinite or NaN) and every `N` not exceeding
the significand field width, `margin<N>(x)` equals `2^N · ulp(x)` as a
value (`ival` is the exact value scaled by `2^scale`), and `margin<0>`
coincides with `ulp` bit for bit.  For larger `N` the margin's biased
exponent can pass the top of the field and wrap, breaking the relation
(see the counterexample). -/
theorem C7_margin_scaling_amended :
    (∀ (F : Fmt) (N x : ℕ), N ≤ F.p →
      (marginFree F N x).map (ival F)
        = (ulpFree F x).map (fun u => 2 ^ N * ival F u)) ∧
    (∀ (F : Fmt) (x : ℕ), marginFree F 0 x = ulpFree F x) := by
  constructor
  · intro F N x hN
    unfold marginFree ulpFree
    cases hg : (isInf F x || isNan F x) with
    | false =>
      simp only [Bool.false_eq_true, if_false]
      cases hil : ilog2 F x with
      | none => rfl
      | some l =>
        simp only [Option.map_some']
        have hfin : isFinite F x = true := isFinite_of_guard_false F x hg
        have hl : l ≤ F.bias := ilogb_le_bias F x hfin l hil
        have hb := bias_pos F
        have hsc := scale_cast F
        have hmi := minImplicit_eq_neg_scale F
        set a0 := max (l - fractionalPrecision F 0) (exponentLimit F 0) with ha0
        have hargs : max (l - fractionalPrecision F N) (exponentLimit F N)
            = a0 + N := by
          rw [ha0, ← max_add_add_right]
          congr 1 <;>
            (simp only [fractionalPrecision, exponentLimit, minImplicit,
              minExplicit, fractionalDigits]
             push_cast
             ring)
        have ha0low : minImplicit F ≤ a0 := by
          rw [ha0, ← exponentLimit_zero F]
          exact le_max_right _ _
        have ha0high : a0 ≤ F.bias - F.p := by
          rw [ha0]
          apply max_le
          · simp only [fractionalPrecision, fractionalDigits]
            push_cast
            omega
          · simp only [exponentLimit, minImplicit, minExplicit, fractionalDigits]
            push_cast
            omega
        obtain ⟨hv1, _, _, _⟩ := ival_exp2i F (a0 + N)
          (by omega) (by omega)
        obtain ⟨hv0, _, _, _⟩ := ival_exp2i F a0 ha0low (by omega)
        rw [hargs, hv1, hv0, ← pow_add]
        congr 2
        omega
    | true =>
      simp [ival_zero_pattern]
  · intro F x
    rfl

/-! ## C8: monotonicity in the tolerance parameter -/

theorem isFinite_of_parts (F : Fmt) (b : ℕ) (h1 : isInf F b = false)
    (h2 : isNan F b = false) : isFinite F b = true := by
  have hnf := not_isFinite_eq F b
  rw [h1, h2] at hnf
  cases hf : isFinite F b
  · rw [hf] at hnf
    simp at hnf
  · rfl

/-- C8 counterexample: the claim fails at single precision with `N = 24`
for the pair `a = 2^127`, `b = 2^126`: `proximal<24>` accepts (its margin
exponent 128 builds `+∞`) but `proximal<25>` rejects (margin exponent 129
wraps the exponent field to the bit pattern `+0.0f`). -/
theorem C8_monotone_counterexample :
    proximalCmp floatFmt 24 0x7F000000 0x7E800000 = some true ∧
    proximalCmp floatFmt 25 0x7F000000 0x7E800000 = some false := by
  decide

/-- C8 (amended): increasing the tolerance parameter never turns a pass
into a fail, for every `N` up to the significand field width of the
format (beyond that the margin's biased exponent can wrap the exponent
field, see the counterexample). -/
theorem C8_monotone_amended (F : Fmt) (N : ℕ) (a b : ℕ) (hN : N ≤ F.p)
    (h : proximalCmp F N a b = some true) :
    proximalCmp F (N + 1) a b = some true := by
  unfold proximalCmp withinMargin at h ⊢
  cases hfe : feq F a b with
  | true => simp [hfe]
  | false =>
    rw [hfe] at h
    simp only [Bool.false_eq_true, if_false] at h ⊢
    cases hguard : (isInf F a || isInf F b || isNan F a || isNan F b) with
    | true =>
      rw [hguard] at h
      simp at h
    | false =>
      rw [hguard] at h
      simp only [Bool.false_eq_true, if_false] at h ⊢
      set xx := fmaxStd F (fabs F a) (fabs F b) with hxx
      set dd := fabs F (fsub F a b) with hdd
      have h4 : isInf F a = false ∧ isInf F b = false ∧ isNan F a = false ∧
          isNan F b = false := by
        cases h1 : isInf F a <;> cases h2 : isInf F b <;>
          cases h3 : isNan F a <;> cases h4 : isNan F b <;>
            (rw [h1, h2, h3, h4] at hguard; simp_all)
      have hfa : isFinite F a = true := isFinite_of_parts F a h4.1 h4.2.2.1
      have hfb : isFinite F b = true := isFinite_of_parts F b h4.2.1 h4.2.2.2
      have hfx : isFinite F xx = true := by
        rw [hxx]
        apply isFinite_fmaxStd
        · rw [isFinite_fabs]; exact hfa
        · rw [isFinite_fabs]; exact hfb
      rw [pmarginPriv_eq] at h ⊢
      cases hil : ilog2 F xx with
      | none =>
        rw [hil] at h
        simp at h
      | some l =>
        rw [hil] at h
        simp only [Option.map_some', Option.some_inj] at h ⊢
        have hl := ilogb_le_bias F xx hfx l hil
        have hb := bias_pos F
        have hsc := scale_cast F
        have hmi := minImplicit_eq_neg_scale F
        set aN := max (l - fractionalPrecision F N) (exponentLimit F N) with haN
        have hstep : max (l - fractionalPrecision F (N + 1))
            (exponentLimit F (N + 1)) = aN + 1 := by
          rw [haN, ← max_add_add_right]
          congr 1 <;>
            (simp only [fractionalPrecision, exponentLimit, minImplicit,
              minExplicit, fractionalDigits]
             push_cast
             ring)
        rw [hstep]
        have haNlow : minImplicit F ≤ aN := by
          rw [haN]
          refine le_trans ?_ (le_max_right _ _)
          simp only [exponentLimit]
          omega
        have haNhigh : aN ≤ F.bias := by
          rw [haN]
          apply max_le
          · simp only [fractionalPrecision, fractionalDigits]
            omega
          · simp only [exponentLimit, minImplicit, minExplicit, fractionalDigits]
            omega
        obtain ⟨hv1, hf1, hn1, hs1⟩ := ival_exp2i F aN haNlow haNhigh
        obtain ⟨hnand, hfd, hivd⟩ := fle_true_elim F dd (exp2i F aN)
          (by rw [hdd]; exact signField_fabs F _) hf1 h
        rcases lt_or_eq_of_le haNhigh with hlt | heq
        · obtain ⟨hv2, hf2, hn2, hs2⟩ := ival_exp2i F (aN + 1) (by omega) (by omega)
          apply fle_true_intro_fin F dd _ hnand hfd hf2
          rw [hv2]
          calc ival F dd ≤ ival F (exp2i F aN) := hivd
          _ = 2 ^ ((aN + F.scale).toNat) := hv1
          _ ≤ 2 ^ ((aN + 1 + F.scale).toNat) := by
            apply pow_le_pow_right₀ (by norm_num)
            omega
        · rw [heq, exp2i_bias_succ]
          obtain ⟨_, _, hsinf, hinf, hnan⟩ := infBits_fields F
          exact fle_true_intro_inf F dd _ hnand hnan hinf hsinf

/-- Witness for C8 at `F = float`, `N = 0`, `a = b = 1.0f`. -/
theorem C8_monotone_witness :
    proximalCmp floatFmt 1 0x3F800000 0x3F800000 = some true :=
  C8_monotone_amended floatFmt 0 0x3F800000 0x3F800000 (by decide) (by decide)

/-! ## C10: symmetry of the comparator

The only asymmetric-looking pieces of `_within_margin` are
`std::max(|a|, |b|)` (asymmetric when the operands are distinct bit
patterns of one value — impossible for finite sign-cleared patterns, since
the significance `natMag` is strictly monotone in the bit pattern) and the
rounded difference (whose magnitude is symmetric). -/

theorem feq_comm (F : Fmt) (a b : ℕ) : feq F a b = feq F b a := by
  unfold feq
  cases hna : isNan F a <;> cases hnb : isNan F b <;>
    cases hia : isInf F a <;> cases hib : isInf F b <;>
      (rw [Bool.eq_iff_iff]
       simp [hna, hnb, hia, hib]
       try exact eq_comm)

theorem natMag_lt_of_lt (F : Fmt) (x y : ℕ) (hy : y < 2 ^ F.width)
    (hxy : x < y) : natMag F x < natMag F y := by
  have hppos := pow_pos (show 0 < 2 by norm_num) F.p
  have hx : x < 2 ^ F.width := lt_trans hxy hy
  have hwidth : 2 ^ F.width = 2 ^ F.ew * 2 ^ F.p := by rw [Fmt.width, pow_add]
  have hex : expField F x = x / 2 ^ F.p := by
    apply Nat.mod_eq_of_lt
    apply Nat.div_lt_of_lt_mul
    rw [mul_comm]
    omega
  have hey : expField F y = y / 2 ^ F.p := by
    apply Nat.mod_eq_of_lt
    apply Nat.div_lt_of_lt_mul
    rw [mul_comm]
    omega
  have hdx := Nat.div_add_mod x (2 ^ F.p)
  have hdy := Nat.div_add_mod y (2 ^ F.p)
  have hsx : x % 2 ^ F.p < 2 ^ F.p := Nat.mod_lt _ hppos
  have hsy : y % 2 ^ F.p < 2 ^ F.p := Nat.mod_lt _ hppos
  have hdiv : x / 2 ^ F.p ≤ y / 2 ^ F.p := Nat.div_le_div_right hxy.le
  unfold natMag significand
  rw [hex, hey]
  rcases eq_or_lt_of_le hdiv with heq | hlt
  · rw [← heq]
    rw [← heq] at hdy
    have hslt : x % 2 ^ F.p < y % 2 ^ F.p := by omega
    by_cases h0 : x / 2 ^ F.p = 0
    · rw [if_pos h0]
      rw [if_pos h0]
      exact hslt
    · rw [if_neg h0, if_neg h0]
      exact Nat.mul_lt_mul_of_lt_of_le (by omega) le_rfl (pow_pos (by norm_num) _)
  · rw [if_neg (by omega : ¬ y / 2 ^ F.p = 0)]
    have hybound : 2 ^ F.p * 2 ^ (y / 2 ^ F.p - 1)
        ≤ (2 ^ F.p + y % 2 ^ F.p) * 2 ^ (y / 2 ^ F.p - 1) :=
      Nat.mul_le_mul_right _ (by omega)
    by_cases h0 : x / 2 ^ F.p = 0
    · rw [if_pos h0]
      calc x % 2 ^ F.p < 2 ^ F.p := hsx
      _ ≤ 2 ^ F.p * 2 ^ (y / 2 ^ F.p - 1) :=
        Nat.le_mul_of_pos_right _ (pow_pos (by norm_num) _)
      _ ≤ _ := hybound
    · rw [if_neg h0]
      calc (2 ^ F.p + x % 2 ^ F.p) * 2 ^ (x / 2 ^ F.p - 1)
          < 2 ^ (F.p + 1) * 2 ^ (x / 2 ^ F.p - 1) := by
            apply Nat.mul_lt_mul_of_lt_of_le _ le_rfl (pow_pos (by norm_num) _)
            rw [pow_succ]
            omega
      _ = 2 ^ (F.p + 1 + (x / 2 ^ F.p - 1)) := (pow_add 2 _ _).symm
      _ ≤ 2 ^ (F.p + (y / 2 ^ F.p - 1)) :=
        Nat.pow_le_pow_right (by norm_num) (by omega)
      _ = 2 ^ F.p * 2 ^ (y / 2 ^ F.p - 1) := pow_add 2 _ _
      _ ≤ _ := hybound

theorem flt_finite (F : Fmt) (x y : ℕ) (hfx : isFinite F x = true)
    (hfy : isFinite F y = true) (hnx : isNan F x = false)
    (hny : isNan F y = false) :
    flt F x y = decide (ival F x < ival F y) := by
  unfold flt
  rw [hnx, hny, isInf_eq_false_of_finite F x hfx, isInf_eq_false_of_finite F y hfy]
  simp [hfx, hfy]

theorem fmaxStd_fabs_comm (F : Fmt) (a b : ℕ) (hfa : isFinite F a = true)
    (hfb : isFinite F b = true) :
    fmaxStd F (fabs F a) (fabs F b) = fmaxStd F (fabs F b) (fabs F a) := by
  have hwpos := pow_pos (show 0 < 2 by norm_num) F.width
  have hu : fabs F a < 2 ^ F.width := Nat.mod_lt _ hwpos
  have hv : fabs F b < 2 ^ F.width := Nat.mod_lt _ hwpos
  have hfu : isFinite F (fabs F a) = true := by rw [isFinite_fabs]; exact hfa
  have hfv : isFinite F (fabs F b) = true := by rw [isFinite_fabs]; exact hfb
  have hnu : isNan F (fabs F a) = false := isNan_eq_false_of_finite _ _ hfu
  have hnv : isNan F (fabs F b) = false := isNan_eq_false_of_finite _ _ hfv
  unfold fmaxStd
  rw [flt_finite F _ _ hfu hfv hnu hnv, flt_finite F _ _ hfv hfu hnv hnu]
  rw [ival_fabs F a, ival_fabs F b]
  simp only [decide_eq_true_eq, Nat.cast_lt]
  rcases lt_trichotomy (natMag F a) (natMag F b) with h | h | h
  · rw [if_pos h, if_neg (by omega)]
  · have huv : fabs F a = fabs F b := by
      by_contra hne
      rcases Nat.lt_or_ge (fabs F a) (fabs F b) with hlt | hge
      · have hm := natMag_lt_of_lt F _ _ hv hlt
        rw [natMag_fabs, natMag_fabs] at hm
        omega
      · have hlt2 : fabs F b < fabs F a := by omega
        have hm := natMag_lt_of_lt F _ _ hu hlt2
        rw [natMag_fabs, natMag_fabs] at hm
        omega
    rw [huv]
    split <;> split <;> rfl
  · rw [if_neg (by omega), if_pos h]

theorem fsub_finite (F : Fmt) (a b : ℕ) (hfa : isFinite F a = true)
    (hfb : isFinite F b = true) :
    fsub F a b = (if ival F a - ival F b = 0 then 0
      else if 0 < ival F a - ival F b then
        roundMag F (ival F a - ival F b).toNat
      else 2 ^ F.width + roundMag F (-(ival F a - ival F b)).toNat) := by
  unfold fsub
  rw [isNan_eq_false_of_finite F a hfa, isNan_eq_false_of_finite F b hfb,
    isInf_eq_false_of_finite F a hfa, isInf_eq_false_of_finite F b hfb]
  simp

theorem fabs_fsub_comm (F : Fmt) (a b : ℕ) (hfa : isFinite F a = true)
    (hfb : isFinite F b = true) :
    fabs F (fsub F a b) = fabs F (fsub F b a) := by
  rw [fsub_finite F a b hfa hfb, fsub_finite F b a hfb hfa]
  have hswap : ival F b - ival F a = -(ival F a - ival F b) := by ring
  rw [hswap]
  simp only [neg_neg, neg_eq_zero]
  rcases lt_trichotomy (ival F a - ival F b) 0 with h | h | h
  · rw [if_neg (by omega), if_neg (by omega), if_neg (by omega),
      if_pos (by omega)]
    unfold fabs
    rw [Nat.add_mod_left]
  · rw [if_pos h, if_pos h]
  · rw [if_neg (by omega), if_pos h, if_neg (by omega), if_neg (by omega)]
    unfold fabs
    rw [Nat.add_mod_left]

/-- C10: the comparator is symmetric for every tolerance `N` and every
pair of same-format operands, including zeros of either sign, subnormals,
infinities and NaNs (undefined computations compare as equally
undefined). -/
theorem C10_symmetric (F : Fmt) (N : ℕ) (a b : ℕ) :
    proximalCmp F N a b = proximalCmp F N b a := by
  unfold proximalCmp withinMargin
  rw [feq_comm F a b]
  cases hfe : feq F b a with
  | true => rfl
  | false =>
    have hg : (isInf F a || isInf F b || isNan F a || isNan F b)
        = (isInf F b || isInf F a || isNan F b || isNan F a) := by
      cases isInf F a <;> cases isInf F b <;> cases isNan F a <;>
        cases isNan F b <;> rfl
    rw [hg]
    cases hguard : (isInf F b || isInf F a || isNan F b || isNan F a) with
    | true => rfl
    | false =>
      have h4 : isInf F b = false ∧ isInf F a = false ∧ isNan F b = false ∧
          isNan F a = false := by
        cases h1 : isInf F b <;> cases h2 : isInf F a <;>
          cases h3 : isNan F b <;> cases h5 : isNan F a <;>
            (rw [h1, h2, h3, h5] at hguard; simp_all)
      have hfa : isFinite F a = true := isFinite_of_parts F a h4.2.1 h4.2.2.2
      have hfb : isFinite F b = true := isFinite_of_parts F b h4.1 h4.2.2.1
      rw [fmaxStd_fabs_comm F a b hfa hfb, fabs_fsub_comm F a b hfa hfb]

/-! ## C5: the generic fallback against the bit-level specialization -/

/-- On the exponent range `[min_implicit, bias + 1]` the generic `exp2i`
(correctly rounded library `exp2`) and the bit-level `exp2i` agree —
including at `bias + 1`, where both produce `+∞`. -/
theorem genExp2i_eq (F : Fmt) (e : ℤ) (h1 : minImplicit F ≤ e)
    (h2 : e ≤ F.bias + 1) : genExp2i F e = exp2i F e := by
  have hmi := minImplicit_eq_neg_scale F
  have hsc := scale_cast F
  have hb := bias_pos F
  have h2ew := two_pow_ew_eq F
  have hewlb := two_le_halfpow F
  set K := (e + F.scale).toNat with hK
  have hKe : (K : ℤ) = e + F.scale := by omega
  unfold genExp2i
  rw [if_pos (by omega : -(F.scale : ℤ) ≤ e)]
  have hppos := pow_pos (show 0 < 2 by norm_num) F.p
  have hbl : bitlen (2 ^ K) = K + 1 := by
    apply bitlen_eq _ _ le_rfl
    have : (2:ℕ) ^ (K + 1) = 2 ^ K * 2 := pow_succ 2 K
    have := pow_pos (show 0 < 2 by norm_num) K
    omega
  have hshift : roundShift F (2 ^ K) = K - F.p := by
    unfold roundShift
    rw [hbl]
    omega
  by_cases hc : K ≤ F.p
  · have hs0 : roundShift F (2 ^ K) = 0 := by rw [hshift]; omega
    have hq : roundQ F (2 ^ K) = 2 ^ K := by
      unfold roundQ
      rw [hs0]
      simp [Nat.mod_one]
    rcases lt_or_eq_of_le hc with hlt | heqp
    · have hexp := (exp2i_eq_pow_of_lt F e h1 (by
        unfold minExplicit
        omega)).1
      rw [hexp]
      unfold roundMag
      rw [hq]
      have hKlt : (2:ℕ) ^ K < 2 ^ F.p := Nat.pow_lt_pow_right (by norm_num) hlt
      have hKlt1 : (2:ℕ) ^ K < 2 ^ (F.p + 1) :=
        Nat.pow_lt_pow_right (by norm_num) (by omega)
      rw [if_neg (by omega), if_pos hKlt]
    · have hexp := (exp2i_eq_mul_of_ge F e (by unfold minExplicit; omega)
        (by omega)).1
      rw [hexp]
      have hone : (e + F.bias).toNat = 1 := by omega
      rw [hone, one_mul]
      unfold roundMag
      rw [hq, hs0, heqp]
      have hlt1 : (2:ℕ) ^ F.p < 2 ^ (F.p + 1) :=
        Nat.pow_lt_pow_right (by norm_num) (by omega)
      rw [if_neg (by omega), if_neg (lt_irrefl _), if_neg (by omega)]
      omega
  · push_neg at hc
    have hsplit : (2:ℕ) ^ K = 2 ^ (K - F.p) * 2 ^ F.p := by
      rw [← pow_add]
      congr 1
      omega
    have hmod : (2:ℕ) ^ K % 2 ^ (K - F.p) = 0 := by
      rw [hsplit]
      exact Nat.mul_mod_right _ _
    have hdivq : (2:ℕ) ^ K / 2 ^ (K - F.p) = 2 ^ F.p := by
      rw [hsplit]
      exact Nat.mul_div_cancel_left _ (pow_pos (by norm_num) _)
    have hs2 : 2 ≤ (2:ℕ) ^ (K - F.p) := by
      calc (2:ℕ) = 2 ^ 1 := rfl
      _ ≤ 2 ^ (K - F.p) := Nat.pow_le_pow_right (by norm_num) (by omega)
    have hq : roundQ F (2 ^ K) = 2 ^ F.p := by
      unfold roundQ
      rw [hshift, hmod, hdivq]
      rw [if_neg (by omega)]
    unfold roundMag
    rw [hq, hshift]
    have hlt1 : (2:ℕ) ^ F.p < 2 ^ (F.p + 1) :=
      Nat.pow_lt_pow_right (by norm_num) (by omega)
    rw [if_neg (by omega), if_neg (lt_irrefl _)]
    by_cases hovf : 2 ^ F.ew ≤ K - F.p + 2
    · rw [if_pos hovf]
      have he : e = F.bias + 1 := by
        unfold Fmt.bias at *
        omega
      rw [he, exp2i_bias_succ]
    · rw [if_neg hovf]
      have hexp := (exp2i_eq_mul_of_ge F e (by unfold minExplicit; omega) h2).1
      rw [hexp]
      have : (2:ℕ) ^ F.p - 2 ^ F.p = 0 := by omega
      rw [this, add_zero]
      congr 1
      omega

/-- On every normal pattern of any format, the generic `ilog2` (library
`ilogb`, the floor base-2 logarithm of the magnitude) agrees with the
bit-level `ilogb`, which just unbiases the stored exponent. -/
theorem genIlog2_eq_of_normal (F : Fmt) (b : ℕ) (hfin : isFinite F b = true)
    (h0 : expField F b ≠ 0) : genIlog2 F b = ilog2 F b := by
  have hsc := scale_cast F
  have hb := bias_pos F
  have hsig := significand_lt F b
  have hppos := pow_pos (show 0 < 2 by norm_num) F.p
  have hnm : natMag F b = (2 ^ F.p + significand F b) * 2 ^ (expField F b - 1) := by
    unfold natMag
    rw [if_neg h0]
  have hmagpos : natMag F b ≠ 0 := by
    rw [hnm]
    have := pow_pos (show 0 < 2 by norm_num) (expField F b - 1)
    exact Nat.mul_ne_zero (by omega) (by omega)
  have hbl : bitlen (natMag F b) = F.p + expField F b := by
    have hlow : 2 ^ (F.p + expField F b - 1) ≤ natMag F b := by
      rw [hnm]
      calc (2:ℕ) ^ (F.p + expField F b - 1) = 2 ^ F.p * 2 ^ (expField F b - 1) := by
            rw [← pow_add]
            congr 1
            omega
      _ ≤ _ := Nat.mul_le_mul_right _ (by omega)
    have hhigh : natMag F b < 2 ^ (F.p + expField F b - 1 + 1) := by
      rw [hnm]
      calc (2 ^ F.p + significand F b) * 2 ^ (expField F b - 1)
          < 2 ^ (F.p + 1) * 2 ^ (expField F b - 1) := by
            apply Nat.mul_lt_mul_of_lt_of_le _ le_rfl (pow_pos (by norm_num) _)
            rw [pow_succ]
            omega
      _ = 2 ^ (F.p + 1 + (expField F b - 1)) := (pow_add 2 _ _).symm
      _ ≤ 2 ^ (F.p + expField F b - 1 + 1) :=
        Nat.pow_le_pow_right (by norm_num) (by omega)
    have := bitlen_eq _ _ hlow hhigh
    omega
  unfold genIlog2 ilog2 ilogb
  have hexp : ¬ exponent F b = -F.bias := by
    unfold exponent
    intro hcontra
    omega
  rw [if_neg hexp]
  have hcond : (isFinite F b && natMag F b != 0) = true := by
    rw [hfin]
    simp [hmagpos]
  rw [hcond, if_pos rfl]
  congr 1
  rw [hbl]
  unfold exponent
  push_cast
  omega

/-- On every finite nonzero single-precision pattern — subnormals
included — the generic `ilog2` agrees with the bit-level `ilogb` (the
single-precision `count_leading_zeros` is the guarded, correct 32-bit
overload). -/
theorem genIlog2_float_eq (b : ℕ) (hfin : isFinite floatFmt b = true)
    (hmag : natMag floatFmt b ≠ 0) :
    genIlog2 floatFmt b = ilog2 floatFmt b := by
  by_cases h0 : expField floatFmt b = 0
  · have hnm : natMag floatFmt b = significand floatFmt b := by
      unfold natMag
      rw [if_pos h0]
    have hsig : significand floatFmt b ≠ 0 := by
      rw [← hnm]
      exact hmag
    have hslt : significand floatFmt b < 2 ^ 23 := significand_lt floatFmt b
    have hble : bitlen (significand floatFmt b) ≤ 23 := bitlen_le_of_lt _ _ hslt
    have hb1 : 1 ≤ bitlen (significand floatFmt b) := bitlen_pos _ hsig
    have hspec : ilog2 floatFmt b
        = some (-127 - ((clz32 (significand floatFmt b) : ℤ) - 9)) :=
      ilogb_float_subnormal b h0
    rw [hspec]
    unfold genIlog2
    have hcond : (isFinite floatFmt b && natMag floatFmt b != 0) = true := by
      rw [hfin]
      simp [hmag]
    rw [hcond, if_pos rfl, hnm]
    congr 1
    unfold clz32
    rw [if_neg hsig]
    have hcast : ((32 - bitlen (significand floatFmt b) : ℕ) : ℤ)
        = 32 - (bitlen (significand floatFmt b) : ℤ) := by omega
    rw [hcast]
    have hscf : (floatFmt.scale : ℤ) = 149 := by decide
    rw [hscf]
    ring
  · exact genIlog2_eq_of_normal floatFmt b hfin h0

/-- the generic `_margin` with its conditional written as `max`. -/
theorem genMarginPriv_eq (F : Fmt) (N : ℕ) (x : ℕ) :
    genMarginPriv F N x = (genIlog2 F x).map fun l =>
      genExp2i F (max (l - fractionalPrecision F N) (exponentLimit F N)) := by
  unfold genMarginPriv
  congr 1
  funext l
  congr 1
  split
  · exact (max_eq_left (le_of_lt (by assumption))).symm
  · exact (max_eq_right (not_lt.mp (by assumption))).symm

/-- For `N ≤ 24` the two `_margin` computations agree on every finite
nonzero single-precision input. -/
theorem genMargin_agree_float (N x : ℕ) (hN : N ≤ 24)
    (hfin : isFinite floatFmt x = true) (hmag : natMag floatFmt x ≠ 0) :
    genMarginPriv floatFmt N x = pmarginPriv floatFmt N x := by
  rw [genMarginPriv_eq, pmarginPriv_eq, genIlog2_float_eq x hfin hmag]
  cases hil : ilog2 floatFmt x with
  | none => rfl
  | some l =>
    simp only [Option.map_some']
    congr 1
    have hl : l ≤ floatFmt.bias := ilogb_le_bias floatFmt x hfin l hil
    have hbias : floatFmt.bias = 127 := by decide
    have hp : ((floatFmt.p : ℕ) : ℤ) = 23 := by decide
    apply genExp2i_eq
    · refine le_trans ?_ (le_max_right _ _)
      simp only [exponentLimit]
      omega
    · apply max_le
      · simp only [fractionalPrecision, fractionalDigits]
        omega
      · simp only [exponentLimit, minImplicit, minExplicit, fractionalDigits]
        omega

/-- When distinct finite operands reach step 3, the larger-magnitude
operand selected by `std::max` is nonzero. -/
theorem natMag_fmax_ne_zero (F : Fmt) (a b : ℕ) (hfa : isFinite F a = true)
    (hfb : isFinite F b = true) (hne : feq F a b = false) :
    natMag F (fmaxStd F (fabs F a) (fabs F b)) ≠ 0 := by
  have hivne : ival F a ≠ ival F b := by
    intro hcontra
    unfold feq at hne
    rw [isNan_eq_false_of_finite F a hfa, isNan_eq_false_of_finite F b hfb,
      isInf_eq_false_of_finite F a hfa, isInf_eq_false_of_finite F b hfb] at hne
    simp [hcontra] at hne
  have hfu : isFinite F (fabs F a) = true := by rw [isFinite_fabs]; exact hfa
  have hfv : isFinite F (fabs F b) = true := by rw [isFinite_fabs]; exact hfb
  have hnu := isNan_eq_false_of_finite _ _ hfu
  have hnv := isNan_eq_false_of_finite _ _ hfv
  unfold fmaxStd
  rw [flt_finite F _ _ hfu hfv hnu hnv, ival_fabs F a, ival_fabs F b]
  split
  · rw [natMag_fabs]
    rename_i hcond
    simp only [decide_eq_true_eq, Nat.cast_lt] at hcond
    omega
  · rw [natMag_fabs]
    rename_i hcond
    simp only [decide_eq_true_eq, Nat.cast_lt, not_lt] at hcond
    intro hz
    apply hivne
    have hzb : natMag F b = 0 := by omega
    unfold ival
    rw [hz, hzb]
    simp

/-- For `N ≤ 24`, compiling `_within_margin` against the generic
`exp2i` / `ilog2` gives the same comparator as the single-precision
bit-level specialization, on every pair of operands. -/
theorem genWithinMargin_eq_float (N : ℕ) (a b : ℕ) (hN : N ≤ 24) :
    genWithinMargin floatFmt N a b = withinMargin floatFmt N a b := by
  unfold genWithinMargin withinMargin
  cases hfe : feq floatFmt a b with
  | true => rfl
  | false =>
    cases hguard : (isInf floatFmt a || isInf floatFmt b ||
        isNan floatFmt a || isNan floatFmt b) with
    | true => rfl
    | false =>
      have h4 : isInf floatFmt a = false ∧ isInf floatFmt b = false ∧
          isNan floatFmt a = false ∧ isNan floatFmt b = false := by
        cases h1 : isInf floatFmt a <;> cases h2 : isInf floatFmt b <;>
          cases h3 : isNan floatFmt a <;> cases h5 : isNan floatFmt b <;>
            (rw [h1, h2, h3, h5] at hguard; simp_all)
      have hfa : isFinite floatFmt a = true :=
        isFinite_of_parts floatFmt a h4.1 h4.2.2.1
      have hfb : isFinite floatFmt b = true :=
        isFinite_of_parts floatFmt b h4.2.1 h4.2.2.2
      have hfx : isFinite floatFmt (fmaxStd floatFmt (fabs floatFmt a)
          (fabs floatFmt b)) = true := by
        apply isFinite_fmaxStd
        · rw [isFinite_fabs]; exact hfa
        · rw [isFinite_fabs]; exact hfb
      have hmag := natMag_fmax_ne_zero floatFmt a b hfa hfb hfe
      rw [genMargin_agree_float N _ hN hfx hmag]

/-- C5 counterexample: the claim fails already for `exp2i` at single
precision: for the exponent argument 129 the library `exp2` overflows to
`+∞` (correct rounding) while the bit-level specialization wraps the
biased exponent `256` to a zero field and returns `+0.0f`. -/
theorem C5_generic_specialized_counterexample :
    genExp2i floatFmt 129 ≠ exp2i floatFmt 129 := by decide

/-- C5 (amended): the generic fallback and the bit-level specializations
agree where the specialized code is defined and in range: `exp2i` on every
exponent in `[min_implicit_exponent, max_explicit_exponent + 1]` (both
overflow to `+∞` at the top; for both formats), `ilog2` on every normal
input (both formats) and on every finite nonzero single-precision input
(subnormals included), and consequently the whole comparator at single
precision for every `N ≤ 24`.  Outside these ranges they diverge (see the
counterexample); on double-precision subnormals the specialized `ilog2`
is undefined (C3/C4), so no equivalence holds there. -/
theorem C5_generic_specialized_amended :
    (∀ (F : Fmt) (e : ℤ), minImplicit F ≤ e → e ≤ F.bias + 1 →
      genExp2i F e = exp2i F e) ∧
    (∀ (F : Fmt) (b : ℕ), isFinite F b = true → expField F b ≠ 0 →
      genIlog2 F b = ilog2 F b) ∧
    (∀ b : ℕ, isFinite floatFmt b = true → natMag floatFmt b ≠ 0 →
      genIlog2 floatFmt b = ilog2 floatFmt b) ∧
    (∀ N a b : ℕ, N ≤ 24 →
      genWithinMargin floatFmt N a b = withinMargin floatFmt N a b) :=
  ⟨genExp2i_eq, genIlog2_eq_of_normal, genIlog2_float_eq,
   fun N a b hN => genWithinMargin_eq_float N a b hN⟩

end Proximal
